import Mathlib

/-!
Verification development for the `ihop` repository: a deduplicated,
content-addressed chunk store exposed as a virtual block device.

The Rust sources under `src/` are shallowly embedded as executable Lean
definitions: machine integers (`u64`, `usize`, `u32`) become `Nat` (the
executions proved about stay far below the wrap-around bounds; where a
debug-mode overflow panic is reachable the embedding returns an error),
byte buffers become `List Nat`, filesystem contents become partial maps
from paths (character-code lists) to byte lists, and fallible or panicking
code returns `Except`/`Option`.  Components of the repository that are not
under `src/` (the prost-generated `storedict` module, the `nbd` wire-format
module) and external crates (`blake2`, `bitar`) are modelled from the
specification; each such definition is marked `Modelled from the spec:` in
its doc comment.
-/

namespace Ihop

/-! ## Byte-level helpers (little-endian and big-endian integer encodings) -/

/-- Little-endian byte encoding of `v` on `k` bytes (models Rust `u64::to_le_bytes`). -/
def toBytesLE : Nat → Nat → List Nat
  | 0, _ => []
  | k+1, v => v % 256 :: toBytesLE k (v / 256)

/-- Little-endian byte decoding (models Rust `u64::from_le_bytes`). -/
def fromBytesLE : List Nat → Nat
  | [] => 0
  | b :: rest => b + 256 * fromBytesLE rest

/-- Big-endian byte encoding of `v` on `k` bytes (network byte order of the wire protocol). -/
def toBytesBE : Nat → Nat → List Nat
  | 0, _ => []
  | k+1, v => toBytesBE k (v / 256) ++ [v % 256]

/-- Big-endian byte decoding. -/
def fromBytesBE (bs : List Nat) : Nat :=
  bs.foldl (fun acc b => acc * 256 + b) 0

/-! ## `src/chunk_map.rs`: the offset interval index -/

/-- `ChunkOffsetSize` from `src/chunk_map.rs`: an interval `[offset, offset+size)`
of the device's flat address space. -/
structure ChunkOffsetSize where
  offset : Nat
  size : Nat
deriving DecidableEq, Repr

/-- `ChunkOffsetSize::new`. -/
def ChunkOffsetSize.new (offset : Nat) (size : Nat) : ChunkOffsetSize :=
  { offset := offset, size := size }

/-- `ChunkOffsetSize::end`: one past the last address of the interval. -/
def ChunkOffsetSize.end' (c : ChunkOffsetSize) : Nat :=
  c.offset + c.size

/-- The `Ord` instance of `ChunkOffsetSize`: by `offset`, ties broken by `size`. -/
def ChunkOffsetSize.cmp (a b : ChunkOffsetSize) : Ordering :=
  match compare a.offset b.offset with
  | Ordering.eq => compare a.size b.size
  | v => v

/-- Propositional form of the strict order underlying `ChunkOffsetSize.cmp`. -/
def ChunkOffsetSize.keyLt (a b : ChunkOffsetSize) : Prop :=
  a.offset < b.offset ∨ (a.offset = b.offset ∧ a.size < b.size)

instance : DecidableRel ChunkOffsetSize.keyLt := by
  intro a b
  unfold ChunkOffsetSize.keyLt
  infer_instance

/-- Sorted-association-list model of `std::collections::BTreeMap<ChunkOffsetSize, V>`:
entries kept in strictly ascending key order. -/
structure ChunkMap (V : Type) where
  btm : List (ChunkOffsetSize × V)
deriving DecidableEq

/-- `ChunkMap::new`. -/
def ChunkMap.new {V : Type} : ChunkMap V := ⟨[]⟩

/-- Ordered insertion into the sorted association list; an equal key has its
value replaced, as `BTreeMap::insert` does. -/
def insertSorted {V : Type} (k : ChunkOffsetSize) (v : V) :
    List (ChunkOffsetSize × V) → List (ChunkOffsetSize × V)
  | [] => [(k, v)]
  | (k', v') :: rest =>
    match k.cmp k' with
    | Ordering.lt => (k, v) :: (k', v') :: rest
    | Ordering.eq => (k, v) :: rest
    | Ordering.gt => (k', v') :: insertSorted k v rest

/-- `ChunkMap::insert`. -/
def ChunkMap.insert {V : Type} (m : ChunkMap V) (location : ChunkOffsetSize) (value : V) :
    ChunkMap V :=
  ⟨insertSorted location value m.btm⟩

/-- `ChunkMap::iter_overlapping`: `range((Unbounded, Excluded((location.end, 0)))).rev()`
followed by `take_while(location.offset < loc.end())`.  On the sorted-list model the
range is a filter by the exclusive upper bound, `.rev()` is `reverse`, and the
iterator is materialised as a list. -/
def ChunkMap.iterOverlapping {V : Type} (m : ChunkMap V) (location : ChunkOffsetSize) :
    List (ChunkOffsetSize × V) :=
  ((m.btm.filter
      (fun kv => decide (kv.1.cmp (ChunkOffsetSize.new location.end' 0) = Ordering.lt))).reverse).takeWhile
    (fun kv => decide (location.offset < kv.1.end'))

/-- The BTreeMap invariant: entries in strictly ascending key order. -/
def ChunkMap.SortedKeys {V : Type} (m : ChunkMap V) : Prop :=
  m.btm.Pairwise (fun x y => x.1.keyLt y.1)

/-- Pairwise non-overlap of the stored intervals (the caller-provided invariant of
a map built from a valid store header). -/
def ChunkMap.NonOverlapping {V : Type} (m : ChunkMap V) : Prop :=
  m.btm.Pairwise (fun x y => ¬ (x.1.offset < y.1.end' ∧ y.1.offset < x.1.end'))

instance {V : Type} (m : ChunkMap V) : Decidable m.SortedKeys := by
  unfold ChunkMap.SortedKeys
  infer_instance

instance {V : Type} (m : ChunkMap V) : Decidable m.NonOverlapping := by
  unfold ChunkMap.NonOverlapping
  infer_instance

/-- Concrete interval map used by witnesses: the three chunk locations of the
`A(4), B(6), A(4)` example store, inserted out of address order. -/
def exampleMap : ChunkMap Nat :=
  ((ChunkMap.new.insert (ChunkOffsetSize.new 4 6) 1).insert
      (ChunkOffsetSize.new 0 4) 0).insert
    (ChunkOffsetSize.new 10 4) 2

/-! ## Paths and chunk identity (`chunk_path_from_hash` in `src/clone.rs`)

Filesystem paths are modelled as lists of character codes; `Path::join`
inserts the separator `47` (the `/` character). -/

/-- The store magic bytes `b"IHOP1\0"` (`STORE_MAGIC` in `src/main.rs`). -/
def STORE_MAGIC : List Nat := [73, 72, 79, 80, 49, 0]

/-- Character code of one lowercase hex digit. -/
def hexCharCode (n : Nat) : Nat :=
  if n < 10 then 48 + n else 87 + n

/-- The two-character lowercase hex rendering `{:02x}` of one byte. -/
def byteHexCodes (b : Nat) : List Nat :=
  [hexCharCode (b / 16), hexCharCode (b % 16)]

/-- `Path::join`: concatenation with a `/` separator. -/
def pathJoin (a b : List Nat) : List Nat :=
  a ++ [47] ++ b

/-- `chunk_path_from_hash` from `src/clone.rs`: `chunks/<first-2-hash-bytes-hex>/<full-hash-hex>.chunk`.
(The Rust code slices the first two hash bytes and panics on a shorter hash; the
model totalises with `take`, and every hash used in a proof has at least two bytes.) -/
def chunkPathFromHash (hash : List Nat) : List Nat :=
  let subdir_name := (hash.take 2).flatMap byteHexCodes
  pathJoin (pathJoin [99, 104, 117, 110, 107, 115] subdir_name)
    (hash.flatMap byteHexCodes ++ [46, 99, 104, 117, 110, 107])

/-- A filesystem snapshot: contents of regular files by absolute path. -/
def Fs : Type := List Nat → Option (List Nat)

/-! ## The store dictionary (prost-generated `storedict` module)

The `storedict` module is generated from a protobuf definition that is not
under `src/`; the data model and its serialisation are modelled from the
spec (§3 StoreHeader, §4.4 step 5). -/

/-- Modelled from the spec: `ChunkerParameters`, the chunker configuration
carried by the store header (the generated `storedict::ChunkerParameters`
is not under `src/`). -/
structure ChunkerParameters where
  chunk_hash_length : Nat
  chunk_filter_bits : Nat
  chunking_algorithm : Nat
  min_chunk_size : Nat
  max_chunk_size : Nat
  rolling_hash_window_size : Nat
deriving DecidableEq, Repr

/-- `ChunkDescriptor`: one distinct chunk (content hash and source size);
mirrors `storedict::ChunkDescriptor` built in `ChunkStore::dictionary`. -/
structure ChunkDescriptor where
  checksum : List Nat
  source_size : Nat
deriving DecidableEq, Repr

/-- `StoreDictionary`: the persisted manifest (spec §3 StoreHeader). -/
structure StoreDictionary where
  application_version : List Nat
  chunker_params : Option ChunkerParameters
  source_checksum : List Nat
  source_total_size : Nat
  source_order : List Nat
  chunk_descriptors : List ChunkDescriptor
deriving DecidableEq, Repr

/-- Modelled from the spec: the structured encoding of the dictionary
(`prost::Message::encode` of the generated `storedict` module, not under
`src/`), modelled as a deterministic length-prefixed field concatenation. -/
def encodeBytesField (bs : List Nat) : List Nat :=
  toBytesLE 8 bs.length ++ bs

/-- Encoding of the optional chunker parameters: a presence byte then six
fixed-width fields. -/
def encodeParams : Option ChunkerParameters → List Nat
  | none => [0]
  | some p =>
    1 :: (toBytesLE 8 p.chunk_hash_length ++ toBytesLE 8 p.chunk_filter_bits ++
      toBytesLE 8 p.chunking_algorithm ++ toBytesLE 8 p.min_chunk_size ++
      toBytesLE 8 p.max_chunk_size ++ toBytesLE 8 p.rolling_hash_window_size)

/-- Encoding of one chunk descriptor. -/
def encodeDescriptor (cd : ChunkDescriptor) : List Nat :=
  encodeBytesField cd.checksum ++ toBytesLE 8 cd.source_size

/-- Modelled from the spec: the full dictionary encoding. -/
def encodeDict (d : StoreDictionary) : List Nat :=
  encodeBytesField d.application_version ++ encodeParams d.chunker_params ++
    encodeBytesField d.source_checksum ++ toBytesLE 8 d.source_total_size ++
    toBytesLE 8 d.source_order.length ++ (d.source_order.map (toBytesLE 8)).flatten ++
    toBytesLE 8 d.chunk_descriptors.length ++
    (d.chunk_descriptors.map encodeDescriptor).flatten

/-- Reads exactly `k` bytes from the front of a buffer. -/
def readBytesN (k : Nat) (bs : List Nat) : Option (List Nat × List Nat) :=
  if k ≤ bs.length then some (bs.take k, bs.drop k) else none

/-- Reads one 8-byte little-endian integer. -/
def readLE64 (bs : List Nat) : Option (Nat × List Nat) :=
  (readBytesN 8 bs).map (fun p => (fromBytesLE p.1, p.2))

/-- Reads one length-prefixed byte field. -/
def readBytesField (bs : List Nat) : Option (List Nat × List Nat) :=
  match readLE64 bs with
  | none => none
  | some (n, rest) => readBytesN n rest

/-- Reads `n` consecutive items with a given item reader. -/
def readListN {α : Type} (read1 : List Nat → Option (α × List Nat)) :
    Nat → List Nat → Option (List α × List Nat)
  | 0, bs => some ([], bs)
  | n+1, bs =>
    match read1 bs with
    | none => none
    | some (a, rest) =>
      match readListN read1 n rest with
      | none => none
      | some (l, rest') => some (a :: l, rest')

/-- Reads the optional chunker parameters. -/
def readParams (bs : List Nat) : Option (Option ChunkerParameters × List Nat) :=
  match bs with
  | [] => none
  | 0 :: rest => some (none, rest)
  | 1 :: rest =>
    match readLE64 rest with
    | none => none
    | some (a, r1) =>
      match readLE64 r1 with
      | none => none
      | some (b, r2) =>
        match readLE64 r2 with
        | none => none
        | some (c, r3) =>
          match readLE64 r3 with
          | none => none
          | some (d, r4) =>
            match readLE64 r4 with
            | none => none
            | some (e, r5) =>
              match readLE64 r5 with
              | none => none
              | some (f, r6) => some (some ⟨a, b, c, d, e, f⟩, r6)
  | _ => none

/-- Reads one chunk descriptor. -/
def readDescriptor (bs : List Nat) : Option (ChunkDescriptor × List Nat) :=
  match readBytesField bs with
  | none => none
  | some (checksum, rest) =>
    match readLE64 rest with
    | none => none
    | some (sz, rest') => some (⟨checksum, sz⟩, rest')

/-- Modelled from the spec: the dictionary decoding (`prost::Message::decode`),
the inverse of `encodeDict`; the whole buffer must be consumed. -/
def decodeDict (bs : List Nat) : Option StoreDictionary :=
  match readBytesField bs with
  | none => none
  | some (version, r1) =>
    match readParams r1 with
    | none => none
    | some (params, r2) =>
      match readBytesField r2 with
      | none => none
      | some (checksum, r3) =>
        match readLE64 r3 with
        | none => none
        | some (total, r4) =>
          match readLE64 r4 with
          | none => none
          | some (norder, r5) =>
            match readListN readLE64 norder r5 with
            | none => none
            | some (order, r6) =>
              match readLE64 r6 with
              | none => none
              | some (ndesc, r7) =>
                match readListN readDescriptor ndesc r7 with
                | none => none
                | some (descriptors, r8) =>
                  match r8 with
                  | [] => some ⟨version, params, checksum, total, order, descriptors⟩
                  | _ => none

/-! ## The header digest (`blake2::Blake2b`, external crate) -/

/-- Modulus of the modelled digest accumulator (a prime larger than any byte). -/
def digestP : Nat := 65521

/-- One step of the modelled digest accumulator. -/
def polyStep (acc b : Nat) : Nat :=
  (acc * 257 + b % 256 + 1) % digestP

/-- Position-weighted accumulator over the input bytes. -/
def polyAcc (data : List Nat) : Nat :=
  data.foldr (fun b acc => polyStep acc b) 0

/-- Modelled from the spec: the wide (64-byte) `Blake2b` digest used over the
store header (`blake2` is an external crate).  The model is a polynomial
checksum for which changing any single byte provably changes the digest —
the integrity property the spec assigns to the real hash. -/
def blake2b (data : List Nat) : List Nat :=
  toBytesLE 8 (polyAcc data) ++ toBytesLE 8 (data.length % 2 ^ 64) ++ List.replicate 48 0

/-- `build_store_header` from `src/clone.rs`: magic, 8-byte little-endian
length of the encoded dictionary, the encoded dictionary, then the digest
over everything so far. -/
def buildStoreHeader (dictionary : StoreDictionary) : List Nat :=
  let dictionary_buf := encodeDict dictionary
  let header := STORE_MAGIC ++ toBytesLE 8 dictionary_buf.length ++ dictionary_buf
  header ++ blake2b header

/-- `mount_ihop` from `src/mount.rs`, the header-reading part: reads the
8-byte dictionary size, the dictionary, the 64-byte checksum; recomputes the
digest over `MAGIC || size || dictionary` and fails on mismatch, then decodes
the dictionary.  (The Rust code panics on each failure; the model returns the
panic message.) -/
def mountIhopParse (rest : List Nat) : Except String StoreDictionary :=
  match readBytesN 8 rest with
  | none => Except.error ("read dictionary size")
  | some (dict_size_buf, r1) =>
    let dict_size := fromBytesLE dict_size_buf
    match readBytesN dict_size r1 with
    | none => Except.error ("read dictionary")
    | some (dict_buf, r2) =>
      match readBytesN 64 r2 with
      | none => Except.error ("read checksum")
      | some (expected_checksum, _r3) =>
        let checksum := blake2b (STORE_MAGIC ++ dict_size_buf ++ dict_buf)
        if checksum ≠ expected_checksum then
          Except.error ("header checksum mismatch")
        else
          match decodeDict dict_buf with
          | none => Except.error ("decode dictionary")
          | some dictionary => Except.ok dictionary

/-- `mount` from `src/mount.rs`, the backend dispatch: the first six bytes
must equal the store magic for the ihop path (otherwise the file is mounted
as a plain file; the model reports that branch as an error value since only
the ihop path is parsed here). -/
def mountParse (bytes : List Nat) : Except String StoreDictionary :=
  match readBytesN 6 bytes with
  | none => Except.error ("read")
  | some (magic, rest) =>
    if magic = STORE_MAGIC then mountIhopParse rest
    else Except.error ("regular file backend")

/-- Well-formedness of the optional chunker parameters: every field fits `u64`. -/
def WFParams : Option ChunkerParameters → Bool
  | none => true
  | some p =>
    decide (p.chunk_hash_length < 2 ^ 64) && decide (p.chunk_filter_bits < 2 ^ 64) &&
    decide (p.chunking_algorithm < 2 ^ 64) && decide (p.min_chunk_size < 2 ^ 64) &&
    decide (p.max_chunk_size < 2 ^ 64) && decide (p.rolling_hash_window_size < 2 ^ 64)

/-- Well-formedness of a dictionary as produced by the Rust types: byte lists
hold bytes, numeric fields fit their machine widths, and lengths fit `u64`. -/
def WFDict (d : StoreDictionary) : Bool :=
  d.application_version.all (fun b => decide (b < 256)) &&
  decide (d.application_version.length < 2 ^ 64) &&
  d.source_checksum.all (fun b => decide (b < 256)) &&
  decide (d.source_checksum.length < 2 ^ 64) &&
  decide (d.source_total_size < 2 ^ 64) &&
  d.source_order.all (fun x => decide (x < 2 ^ 64)) &&
  decide (d.source_order.length < 2 ^ 64) &&
  d.chunk_descriptors.all (fun cd => cd.checksum.all (fun b => decide (b < 256)) &&
    decide (cd.checksum.length < 2 ^ 64) && decide (cd.source_size < 2 ^ 64)) &&
  decide (d.chunk_descriptors.length < 2 ^ 64) &&
  WFParams d.chunker_params &&
  decide ((encodeDict d).length < 2 ^ 64)

/-! ## `src/mount.rs`: the chunked-store block device -/

/-- `IhopBackedDevice` from `src/mount.rs`. -/
structure IhopBackedDevice where
  root_path : List Nat
  block_size : Nat
  block_count : Nat
  chunk_location_map : ChunkMap (List Nat)
deriving DecidableEq

/-- Overwrites `data.length` bytes of `buf` starting at `off` (the in-place
slice write `buf[off..off+len].copy` performed by `read_exact` into the
output buffer). -/
def bufWrite (buf : List Nat) (off : Nat) (data : List Nat) : List Nat :=
  buf.take off ++ data ++ buf.drop (off + data.length)

/-- The body of the `for (location, path) in locations` loop of
`IhopBackedDevice::read`.  Parameters follow the Rust mutable state: the
running request `offset`, the running `buf_offset`, and the output buffer.
`bufLen` is the (constant) `buf.len()` of the Rust slice.  Panicking
operations (`expect` on open/seek/read, a debug-mode subtraction overflow)
become errors. -/
def ihopReadLoop (fs : Fs) (root_path : List Nat) (bufLen : Nat) :
    List (ChunkOffsetSize × List Nat) → Nat → Nat → List Nat → Except String (List Nat)
  | [], _offset, _buf_offset, buf => Except.ok buf
  | (location, path) :: rest, offset, buf_offset, buf =>
    match fs (pathJoin root_path path) with
    | none => Except.error ("open chunk file")
    | some content =>
      if offset < location.offset then
        -- `offset - location.offset` underflows u64 (panics in a debug build)
        Except.error ("attempt to subtract with overflow")
      else
        let offset_in_file := offset - location.offset
        if location.size < offset_in_file then
          -- `location.size - offset_in_file` underflows usize
          Except.error ("attempt to subtract with overflow")
        else
          let read_from_file := min (bufLen - buf_offset) (location.size - offset_in_file)
          if content.length < offset_in_file + read_from_file then
            -- `read_exact` hits end of file
            Except.error ("read chunk from file")
          else
            ihopReadLoop fs root_path bufLen rest (offset + read_from_file)
              (buf_offset + read_from_file)
              (bufWrite buf buf_offset ((content.drop offset_in_file).take read_from_file))

/-- `IhopBackedDevice::read`: query the interval index for the requested
range, sort the matches ascending by offset (`sort_by` on `offset` is a
stable sort, modelled by a stable insertion sort), then stream each chunk
file into the buffer. -/
def ihopRead (fs : Fs) (dev : IhopBackedDevice) (offset : Nat) (buf : List Nat) :
    Except String (List Nat) :=
  let locations := dev.chunk_location_map.iterOverlapping
    (ChunkOffsetSize.new offset buf.length)
  let sorted := List.insertionSort (fun a b => a.1.offset ≤ b.1.offset) locations
  ihopReadLoop fs dev.root_path buf.length sorted offset 0 buf

/-- The `for index in &dictionary.source_order` loop of `make_device`:
accumulates the running offset and inserts each chunk's interval.  An
out-of-range index into `chunk_descriptors` is the Rust indexing panic,
modelled as `none`. -/
def makeDeviceLoop (cds : List ChunkDescriptor) :
    List Nat → Nat → ChunkMap (List Nat) → Option (ChunkMap (List Nat))
  | [], _offset, m => some m
  | index :: rest, offset, m =>
    match cds.get? index with
    | none => none
    | some cd =>
      makeDeviceLoop cds rest (offset + cd.source_size)
        (m.insert (ChunkOffsetSize.new offset cd.source_size)
          (chunkPathFromHash cd.checksum))

/-- `make_device` from `src/mount.rs`: builds the interval index from
`source_order` and reports `source_total_size / block_size` blocks
(integer division). -/
def makeDevice (root_path : List Nat) (dictionary : StoreDictionary)
    (block_size : Nat) : Option IhopBackedDevice :=
  match makeDeviceLoop dictionary.chunk_descriptors dictionary.source_order 0
      ChunkMap.new with
  | none => none
  | some chunk_location_map =>
    some { root_path := root_path, block_size := block_size,
           block_count := dictionary.source_total_size / block_size,
           chunk_location_map := chunk_location_map }

/-! ## `src/mount_file.rs`: the plain-file block device -/

/-- `FileBackedDevice` from `src/mount_file.rs`: the backing file inlined as
its byte contents, plus the tracked cursor. -/
structure FileBackedDevice where
  current_file_offs : Nat
  file : List Nat
  block_size : Nat
  block_count : Nat
deriving DecidableEq

/-- File operations issued by `FileBackedDevice::read`, recorded as a trace. -/
inductive FileOp where
  | seek (pos : Nat)
  | readOp (n : Nat)
deriving DecidableEq, Repr

/-- The `while total_read < buf.len()` loop of `FileBackedDevice::read`:
each `file.read` returns the bytes available at the cursor (up to the
remaining buffer space) and the loop breaks on a zero-length read. -/
def fileReadLoop (file : List Nat) (bufLen : Nat) (pos : Nat) (acc : List Nat)
    (tr : List FileOp) : List Nat × Nat × List FileOp :=
  if h : acc.length < bufLen then
    if hc : ((file.drop pos).take (bufLen - acc.length)).length = 0 then
      (acc, pos, tr ++ [FileOp.readOp 0])
    else
      fileReadLoop file bufLen (pos + ((file.drop pos).take (bufLen - acc.length)).length)
        (acc ++ (file.drop pos).take (bufLen - acc.length))
        (tr ++ [FileOp.readOp ((file.drop pos).take (bufLen - acc.length)).length])
  else (acc, pos, tr)
termination_by bufLen - acc.length
decreasing_by
  simp only [List.length_append]
  refine Nat.sub_lt_sub_left h ?_
  omega

/-- `FileBackedDevice::read`: seek only when the request is not already at
the tracked cursor, read until the buffer is full or end of file, then
zero-fill the unread tail.  Returns the filled buffer, the updated device
and the trace of file operations. -/
def fileRead (dev : FileBackedDevice) (offset : Nat) (bufLen : Nat) :
    List Nat × FileBackedDevice × List FileOp :=
  let tr0 : List FileOp := if offset ≠ dev.current_file_offs then [FileOp.seek offset] else []
  let r := fileReadLoop dev.file bufLen offset [] tr0
  let buf := r.1 ++ List.replicate (bufLen - r.1.length) 0
  (buf, { dev with current_file_offs := r.2.1 }, r.2.2)

/-- The block-count computation of `mount` in `src/mount_file.rs`:
`(metadata.len() + block_size - 1) / block_size`. -/
def fileMountBlockCount (file_length : Nat) (block_size : Nat) : Nat :=
  (file_length + block_size - 1) / block_size

/-! ## `src/clone.rs`: the chunk store -/

/-- Modelled from the spec: `HashSum::b2_digest(data, len)` of the external
`bitar` crate — the content hash of a chunk truncated to the descriptor's
digest length; modelled as a prefix of the modelled wide digest. -/
def b2Digest (data : List Nat) (len : Nat) : List Nat :=
  (blake2b data).take len

/-- Filesystem operations issued by the chunk store, recorded as a trace. -/
inductive FsOp where
  | openRead (path : List Nat)
  | readToEnd (path : List Nat)
  | createDirAll (path : List Nat)
  | openWrite (path : List Nat)
  | writeAll (path : List Nat) (data : List Nat)
deriving DecidableEq, Repr

/-- `HashMap::insert`: replaces the value of an existing key, otherwise
appends the entry. -/
def mapInsert {β : Type} (m : List (List Nat × β)) (k : List Nat) (v : β) :
    List (List Nat × β) :=
  if m.any (fun kv => decide (kv.1 = k)) then
    m.map (fun kv => if kv.1 = k then (k, v) else kv)
  else m ++ [(k, v)]

/-- The `for (hash, v) in chunks.iter()` loop of
`ChunkStore::filter_present_chunks`: a chunk goes into `new_index` when its
file is absent, or — with `verify` — present but hashing (at the stored
hash's length) to something else.  The trace records the file operations
performed; no write operation is ever issued. -/
def filterPresentChunksGo {β : Type} (fs : Fs) (root : List Nat) (verify : Bool) :
    List (List Nat × β) → List (List Nat × β) → List FsOp →
      List (List Nat × β) × List FsOp
  | [], new_index, tr => (new_index, tr)
  | (hash, v) :: rest, new_index, tr =>
    let chunk_path := pathJoin root (chunkPathFromHash hash)
    match fs chunk_path with
    | some chunk_buf =>
      filterPresentChunksGo fs root verify rest
        (if verify && !(b2Digest chunk_buf hash.length == hash) then
          mapInsert new_index hash v
        else new_index)
        (tr ++ [FsOp.openRead chunk_path] ++
          (if verify then [FsOp.readToEnd chunk_path] else []))
    | none =>
      filterPresentChunksGo fs root verify rest (mapInsert new_index hash v)
        (tr ++ [FsOp.openRead chunk_path])

/-- `ChunkStore::filter_present_chunks` from `src/clone.rs` (the model reads
each present chunk without IO errors; the Rust code treats a read error as
present-and-valid). -/
def filterPresentChunks {β : Type} (fs : Fs) (root : List Nat) (verify : Bool)
    (chunks : List (List Nat × β)) : List (List Nat × β) × List FsOp :=
  filterPresentChunksGo fs root verify chunks [] []

/-- The membership condition of `filter_present_chunks` as a predicate:
absent, or present but failing verification. -/
def chunkMissing (fs : Fs) (root : List Nat) (verify : Bool) (hash : List Nat) : Bool :=
  match fs (pathJoin root (chunkPathFromHash hash)) with
  | none => true
  | some chunk_buf => verify && !(b2Digest chunk_buf hash.length == hash)

/-- `ChunkStore::write_chunk` from `src/clone.rs`: the chunk file is opened
with `write(true).create(true)` and **no truncation**, then the chunk bytes
are written from position 0 — bytes of a pre-existing longer file beyond the
written range survive. -/
def writeChunk (fs : Fs) (root : List Nat) (hash : List Nat) (buf : List Nat) : Fs :=
  fun p =>
    if p = pathJoin root (chunkPathFromHash hash) then
      some (buf ++ ((fs (pathJoin root (chunkPathFromHash hash))).getD []).drop buf.length)
    else fs p

/-! ## `src/nbd/device.rs`: the request stream

`RequestStream::read_next` lives under `src/`; the record layout
(`nbd::SIZE_OF_REQUEST`, `nbd::Request::try_from_bytes`) lives in the `nbd`
module root, which is not under `src/`, and is modelled from the spec
(§4.7 binary framing: magic/command/handle/offset/length records of a fixed
size, in network byte order). -/

/-- The wire commands (`nbd::Command`). -/
inductive Command where
  | Read
  | Flush
  | Write
  | Disc
  | Trim
  | WriteZeroes
deriving DecidableEq, Repr

/-- Modelled from the spec: the numeric code of each wire command. -/
def Command.toNat : Command → Nat
  | Command.Read => 0
  | Command.Write => 1
  | Command.Disc => 2
  | Command.Flush => 3
  | Command.Trim => 4
  | Command.WriteZeroes => 6

/-- Modelled from the spec: parsing a command code. -/
def commandOfNat : Nat → Option Command
  | 0 => some Command.Read
  | 1 => some Command.Write
  | 2 => some Command.Disc
  | 3 => some Command.Flush
  | 4 => some Command.Trim
  | 6 => some Command.WriteZeroes
  | _ => none

/-- Modelled from the spec: `nbd::Request`, one fixed-size wire request. -/
structure Request where
  command : Command
  handle : Nat
  from_ : Nat
  len : Nat
deriving DecidableEq, Repr

/-- Modelled from the spec: `nbd::SIZE_OF_REQUEST`, the fixed record size:
4 magic bytes, 4 command bytes, 8 handle bytes, 8 offset bytes, 4 length bytes. -/
def SIZE_OF_REQUEST : Nat := 28

/-- Modelled from the spec: the request magic bytes (big-endian). -/
def REQUEST_MAGIC : List Nat := [37, 96, 149, 19]

/-- Modelled from the spec: the fixed-layout encoding of a request. -/
def encodeRequest (r : Request) : List Nat :=
  REQUEST_MAGIC ++ toBytesBE 4 r.command.toNat ++ toBytesBE 8 r.handle ++
    toBytesBE 8 r.from_ ++ toBytesBE 4 r.len

/-- Modelled from the spec: `nbd::Request::try_from_bytes` — validates the
record size, the magic and the command code of one record slice. -/
def tryFromBytes (b : List Nat) : Except String Request :=
  if b.length ≠ SIZE_OF_REQUEST then Except.error ("bad request size")
  else if b.take 4 ≠ REQUEST_MAGIC then Except.error ("bad request magic")
  else
    match commandOfNat (fromBytesBE ((b.drop 4).take 4)) with
    | none => Except.error ("bad request command")
    | some command =>
      Except.ok ⟨command, fromBytesBE ((b.drop 8).take 8),
        fromBytesBE ((b.drop 16).take 8), fromBytesBE ((b.drop 24).take 4)⟩

/-- The offsets visited by `(0..n).step_by(step)`: every multiple of `step`
below `n` (there are `⌈n / step⌉` of them). -/
def stepBy (n step : Nat) : List Nat :=
  List.range' 0 ((n + step - 1) / step) step

/-- The body of the decode loop of `RequestStream::read_next`: each visited
offset yields one full record slice of the persistent receive buffer, decoded
by `try_from_bytes`; the first slice that fails validation aborts with its
error. -/
def decodeSlices (read_buf : List Nat) : List Nat → Except String (List Request)
  | [] => Except.ok []
  | offs :: rest =>
    match tryFromBytes ((read_buf.drop offs).take SIZE_OF_REQUEST) with
    | Except.error e => Except.error e
    | Except.ok req =>
      match decodeSlices read_buf rest with
      | Except.error e => Except.error e
      | Except.ok reqs => Except.ok (req :: reqs)

/-- `RequestStream::read_next`, the decoding part
(`for offs in (0..n).step_by(nbd::SIZE_OF_REQUEST)`): `read_buf` is the
persistent receive buffer (of capacity `SIZE_OF_REQUEST * MAX_BATCH_REQUESTS`)
and `n` the number of bytes produced by the receive call.  Every stride
offset below `n` is sliced as a full record — also when `n` is not a
multiple of the record size, in which case the last slice extends past the
received bytes into stale buffer contents. -/
def decodeRequests (read_buf : List Nat) (n : Nat) : Except String (List Request) :=
  decodeSlices read_buf (stepBy n SIZE_OF_REQUEST)

/-- Well-formedness of a request: fields fit their wire widths. -/
def WFRequest (r : Request) : Bool :=
  decide (r.handle < 2 ^ 64) && decide (r.from_ < 2 ^ 64) && decide (r.len < 2 ^ 32)

/-! ## Concrete inputs used by witnesses and counterexamples -/

/-- The store root path used in concrete runs (character codes of `store`). -/
def exampleRoot : List Nat := [115, 116, 111, 114, 101]

/-- The concrete dictionary of the spec scenario: chunks `A` (hash `[1,2]`,
size 4) and `B` (hash `[3,4]`, size 6), `source_order = [0,1,0]`, total 14. -/
def exampleDict : StoreDictionary :=
  { application_version := [49, 46, 48]
    chunker_params := some ⟨2, 10, 1, 128, 4096, 16⟩
    source_checksum := [9, 9]
    source_total_size := 14
    source_order := [0, 1, 0]
    chunk_descriptors := [⟨[1, 2], 4⟩, ⟨[3, 4], 6⟩] }

/-- Contents of chunk `A`. -/
def exampleChunkA : List Nat := [10, 11, 12, 13]

/-- Contents of chunk `B`. -/
def exampleChunkB : List Nat := [20, 21, 22, 23, 24, 25]

/-- Filesystem snapshot of the cloned example store: both chunk files present
under the store root. -/
def exampleFs : Fs :=
  fun p =>
    if p = pathJoin exampleRoot (chunkPathFromHash [1, 2]) then some exampleChunkA
    else if p = pathJoin exampleRoot (chunkPathFromHash [3, 4]) then some exampleChunkB
    else none

/-- A filesystem with chunk `A` present but corrupted and chunk `B` absent. -/
def exampleFsCorrupt : Fs :=
  fun p =>
    if p = pathJoin exampleRoot (chunkPathFromHash [1, 2]) then some [0, 0, 0, 0]
    else none

/-- A concrete valid wire request. -/
def exampleRequest : Request :=
  { command := Command.Read, handle := 7, from_ := 1024, len := 512 }

/-- The receive buffer of the C6 counterexample: one whole encoded request,
then the first 14 bytes of a second encoded request, then stale zero bytes up
to the 112-byte buffer capacity. -/
def examplePartialBuf : List Nat :=
  encodeRequest exampleRequest ++
    (encodeRequest { command := Command.Read, handle := 0, from_ := 0, len := 0 }).take 14 ++
    List.replicate 70 0

/-- A default device (used only as the `Option.getD` fallback of witnesses). -/
def defaultIhopDevice : IhopBackedDevice :=
  { root_path := [], block_size := 0, block_count := 0, chunk_location_map := ChunkMap.new }

/-- The example device mounted with block size 3. -/
def exampleDevice3 : IhopBackedDevice :=
  (makeDevice exampleRoot exampleDict 3).getD defaultIhopDevice

/-- A concrete plain-file device: cursor at 2, five file bytes. -/
def exampleFileDevice : FileBackedDevice :=
  { current_file_offs := 2, file := [1, 2, 3, 4, 5], block_size := 512, block_count := 1 }

/-- A concrete chunk index (hash and size per chunk) as iterated by
`filter_present_chunks`. -/
def exampleChunkIndex : List (List Nat × Nat) := [([1, 2], 4), ([3, 4], 6)]

/-! # Theorems -/

/-! ## Byte-encoding lemmas -/

theorem toBytesLE_length (k v : Nat) : (toBytesLE k v).length = k := by
  induction k generalizing v with
  | zero => simp [toBytesLE]
  | succ k ih => simp [toBytesLE, ih]

theorem toBytesBE_length (k v : Nat) : (toBytesBE k v).length = k := by
  induction k generalizing v with
  | zero => simp [toBytesBE]
  | succ k ih => simp [toBytesBE, ih]

theorem toBytesLE_lt (k v : Nat) : ∀ b ∈ toBytesLE k v, b < 256 := by
  induction k generalizing v with
  | zero => simp [toBytesLE]
  | succ k ih =>
    intro b hb
    simp only [toBytesLE, List.mem_cons] at hb
    rcases hb with h | h
    · omega
    · exact ih _ b h

theorem toBytesBE_lt (k v : Nat) : ∀ b ∈ toBytesBE k v, b < 256 := by
  induction k generalizing v with
  | zero => simp [toBytesBE]
  | succ k ih =>
    intro b hb
    simp only [toBytesBE, List.mem_append, List.mem_singleton] at hb
    rcases hb with h | h
    · exact ih _ b h
    · omega

theorem fromBytesLE_toBytesLE (k v : Nat) (h : v < 256 ^ k) :
    fromBytesLE (toBytesLE k v) = v := by
  induction k generalizing v with
  | zero =>
    simp only [toBytesLE, fromBytesLE]
    omega
  | succ k ih =>
    have hdiv : v / 256 < 256 ^ k := by
      rw [Nat.div_lt_iff_lt_mul (by norm_num)]
      calc v < 256 ^ (k + 1) := h
        _ = 256 ^ k * 256 := by ring
    simp [toBytesLE, fromBytesLE, ih _ hdiv]
    omega

theorem fromBytesBE_toBytesBE (k v : Nat) (h : v < 256 ^ k) :
    fromBytesBE (toBytesBE k v) = v := by
  induction k generalizing v with
  | zero =>
    simp only [toBytesBE, fromBytesBE, List.foldl_nil]
    omega
  | succ k ih =>
    have hdiv : v / 256 < 256 ^ k := by
      rw [Nat.div_lt_iff_lt_mul (by norm_num)]
      calc v < 256 ^ (k + 1) := h
        _ = 256 ^ k * 256 := by ring
    simp only [toBytesBE, fromBytesBE, List.foldl_append, List.foldl_cons, List.foldl_nil]
    have : (toBytesBE k (v / 256)).foldl (fun acc b => acc * 256 + b) 0 = v / 256 := ih _ hdiv
    rw [this]
    omega

theorem toBytesLE_injective (k v w : Nat) (hv : v < 256 ^ k) (hw : w < 256 ^ k)
    (h : toBytesLE k v = toBytesLE k w) : v = w := by
  have := fromBytesLE_toBytesLE k v hv
  rw [h, fromBytesLE_toBytesLE k w hw] at this
  omega

/-! ## Order lemmas for the interval index -/

theorem ChunkOffsetSize.cmp_eq_lt_iff (a b : ChunkOffsetSize) :
    a.cmp b = Ordering.lt ↔ a.keyLt b := by
  unfold ChunkOffsetSize.cmp ChunkOffsetSize.keyLt
  rcases Nat.lt_trichotomy a.offset b.offset with h | h | h
  · simp [Nat.compare_eq_lt.mpr h]
    omega
  · have hc : compare a.offset b.offset = Ordering.eq := Nat.compare_eq_eq.mpr h
    simp [hc, Nat.compare_eq_lt]
    omega
  · have hc : compare a.offset b.offset = Ordering.gt := Nat.compare_eq_gt.mpr h
    simp [hc]
    omega

theorem ChunkOffsetSize.cmp_eq_eq_iff (a b : ChunkOffsetSize) :
    a.cmp b = Ordering.eq ↔ a = b := by
  unfold ChunkOffsetSize.cmp
  rcases Nat.lt_trichotomy a.offset b.offset with h | h | h
  · simp [Nat.compare_eq_lt.mpr h]
    intro he
    rw [he] at h
    omega
  · have hc : compare a.offset b.offset = Ordering.eq := Nat.compare_eq_eq.mpr h
    simp [hc, Nat.compare_eq_eq]
    constructor
    · intro hs
      cases a
      cases b
      simp_all
    · intro he
      rw [he]
  · have hc : compare a.offset b.offset = Ordering.gt := Nat.compare_eq_gt.mpr h
    simp [hc]
    intro he
    rw [he] at h
    omega

theorem ChunkOffsetSize.cmp_eq_gt_iff (a b : ChunkOffsetSize) :
    a.cmp b = Ordering.gt ↔ b.keyLt a := by
  unfold ChunkOffsetSize.cmp ChunkOffsetSize.keyLt
  rcases Nat.lt_trichotomy a.offset b.offset with h | h | h
  · simp [Nat.compare_eq_lt.mpr h]
    omega
  · have hc : compare a.offset b.offset = Ordering.eq := Nat.compare_eq_eq.mpr h
    simp [hc, Nat.compare_eq_gt]
    omega
  · have hc : compare a.offset b.offset = Ordering.gt := Nat.compare_eq_gt.mpr h
    simp [hc]
    omega

theorem keyLt_trans {a b c : ChunkOffsetSize} (h₁ : a.keyLt b) (h₂ : b.keyLt c) :
    a.keyLt c := by
  unfold ChunkOffsetSize.keyLt at *
  omega

theorem mem_insertSorted {V : Type} {k : ChunkOffsetSize} {v : V} {y : ChunkOffsetSize × V} :
    ∀ {l : List (ChunkOffsetSize × V)}, y ∈ insertSorted k v l → y = (k, v) ∨ y ∈ l
  | [], h => by
    simp only [insertSorted, List.mem_singleton] at h
    exact Or.inl h
  | (k', v') :: rest, h => by
    rcases hc : k.cmp k' with _ | _ | _ <;>
      simp only [insertSorted, hc, List.mem_cons] at h
    · rcases h with h | h | h
      · exact Or.inl h
      · exact Or.inr (List.mem_cons.mpr (Or.inl h))
      · exact Or.inr (List.mem_cons.mpr (Or.inr h))
    · rcases h with h | h
      · exact Or.inl h
      · exact Or.inr (List.mem_cons.mpr (Or.inr h))
    · rcases h with h | h
      · exact Or.inr (List.mem_cons.mpr (Or.inl h))
      · rcases mem_insertSorted h with h2 | h2
        · exact Or.inl h2
        · exact Or.inr (List.mem_cons.mpr (Or.inr h2))

theorem insertSorted_sorted {V : Type} (k : ChunkOffsetSize) (v : V)
    (l : List (ChunkOffsetSize × V)) (hl : l.Pairwise (fun x y => x.1.keyLt y.1)) :
    (insertSorted k v l).Pairwise (fun x y => x.1.keyLt y.1) := by
  induction l with
  | nil => simp [insertSorted]
  | cons hd tl ih =>
    obtain ⟨hhd, htl⟩ := List.pairwise_cons.mp hl
    rcases h : k.cmp hd.1 with _ | _ | _
    · rw [show insertSorted k v (hd :: tl) = (k, v) :: hd :: tl by
        simp [insertSorted, h]]
      refine List.pairwise_cons.mpr ⟨?_, hl⟩
      intro y hy
      rcases List.mem_cons.mp hy with h1 | h1
      · rw [h1]
        exact (ChunkOffsetSize.cmp_eq_lt_iff k hd.1).mp h
      · exact keyLt_trans ((ChunkOffsetSize.cmp_eq_lt_iff k hd.1).mp h) (hhd y h1)
    · rw [show insertSorted k v (hd :: tl) = (k, v) :: tl by
        simp [insertSorted, h]]
      refine List.pairwise_cons.mpr ⟨?_, htl⟩
      intro y hy
      have he : k = hd.1 := (ChunkOffsetSize.cmp_eq_eq_iff k hd.1).mp h
      rw [he]
      exact hhd y hy
    · rw [show insertSorted k v (hd :: tl) = hd :: insertSorted k v tl by
        simp [insertSorted, h]]
      refine List.pairwise_cons.mpr ⟨?_, ih htl⟩
      intro y hy
      rcases mem_insertSorted hy with h1 | h1
      · rw [h1]
        exact (ChunkOffsetSize.cmp_eq_gt_iff k hd.1).mp h
      · exact hhd y h1

/-- Membership in `takeWhile` for a list whose order `R` makes the predicate `p`
hold on everything `R`-before a member satisfying it. -/
theorem mem_takeWhile_of_pairwise {α : Type _} {R : α → α → Prop} {p : α → Bool}
    {l : List α} {a : α} (hl : l.Pairwise R) (ha : a ∈ l) (hpa : p a = true)
    (hcl : ∀ x ∈ l, R x a → p x = true) : a ∈ l.takeWhile p := by
  induction l with
  | nil => cases ha
  | cons hd tl ih =>
    obtain ⟨hhd, htl⟩ := List.pairwise_cons.mp hl
    rcases List.mem_cons.mp ha with h1 | h1
    · rw [h1] at hpa
      rw [List.takeWhile_cons, if_pos hpa]
      rw [h1]
      exact List.mem_cons_self hd _
    · have hphd : p hd = true := hcl hd (List.mem_cons_self hd tl) (hhd a h1)
      rw [List.takeWhile_cons, if_pos hphd]
      exact List.mem_cons.mpr (Or.inr (ih htl h1 (fun x hx hrx => hcl x (List.mem_cons.mpr (Or.inr hx)) hrx)))

theorem cmp_lt_bound_iff (a : ChunkOffsetSize) (e : Nat) :
    (a.cmp (ChunkOffsetSize.new e 0) = Ordering.lt) ↔ a.offset < e := by
  rw [ChunkOffsetSize.cmp_eq_lt_iff]
  unfold ChunkOffsetSize.keyLt ChunkOffsetSize.new
  simp

/-- C1: for a sorted, pairwise non-overlapping interval map, `iter_overlapping`
returns exactly the stored intervals `I` with `I.offset < q.end` and
`q.offset < I.end` (true range overlap), and no others. -/
theorem iterOverlapping_exact {V : Type} (m : ChunkMap V) (q : ChunkOffsetSize)
    (hs : m.SortedKeys) (hno : m.NonOverlapping) (kv : ChunkOffsetSize × V) :
    kv ∈ m.iterOverlapping q ↔
      kv ∈ m.btm ∧ kv.1.offset < q.end' ∧ q.offset < kv.1.end' := by
  unfold ChunkMap.iterOverlapping
  constructor
  · intro h
    have hp := List.mem_takeWhile_imp h
    have hmem := (List.takeWhile_sublist _).subset h
    rw [List.mem_reverse] at hmem
    have hf := List.mem_filter.mp hmem
    exact ⟨hf.1, (cmp_lt_bound_iff kv.1 q.end').mp (of_decide_eq_true hf.2),
      of_decide_eq_true hp⟩
  · rintro ⟨hmem, hlt, hov⟩
    have hfmem : kv ∈ m.btm.filter
        (fun kv => decide (kv.1.cmp (ChunkOffsetSize.new q.end' 0) = Ordering.lt)) :=
      List.mem_filter.mpr ⟨hmem, decide_eq_true ((cmp_lt_bound_iff kv.1 q.end').mpr hlt)⟩
    have hrev := List.mem_reverse.mpr hfmem
    have hsym : Symmetric (fun x y : ChunkOffsetSize × V =>
        ¬ (x.1.offset < y.1.end' ∧ y.1.offset < x.1.end')) := by
      intro a b hab hba
      exact hab ⟨hba.2, hba.1⟩
    refine mem_takeWhile_of_pairwise (R := fun x y => y.1.keyLt x.1)
      ?_ hrev (decide_eq_true hov) ?_
    · rw [List.pairwise_reverse]
      exact hs.filter _
    · intro x hx hRx
      rw [List.mem_reverse] at hx
      have hxf := List.mem_filter.mp hx
      refine decide_eq_true ?_
      by_cases hcase : kv.1.offset = x.1.offset
      · unfold ChunkOffsetSize.keyLt at hRx
        unfold ChunkOffsetSize.end' at hov ⊢
        omega
      · have hne : kv ≠ x := by
          intro he
          rw [he] at hcase
          exact hcase rfl
        have hnoov := (hno.forall hsym) hmem hxf.1 hne
        unfold ChunkOffsetSize.keyLt at hRx
        unfold ChunkOffsetSize.end' at hov hnoov ⊢
        omega

/-- C1 witness: in the concrete example map the interval `[4,10)` is reported as
overlapping the query `[2,8)`. -/
theorem iterOverlapping_exact_witness :
    exampleMap.SortedKeys ∧ exampleMap.NonOverlapping ∧
      (ChunkOffsetSize.new 4 6, 1) ∈ exampleMap.iterOverlapping (ChunkOffsetSize.new 2 6) :=
  ⟨by decide, by decide,
    (iterOverlapping_exact exampleMap (ChunkOffsetSize.new 2 6) (by decide) (by decide)
      (ChunkOffsetSize.new 4 6, 1)).mpr (by decide)⟩

/-- C10: `iter_overlapping` yields its matches in strictly descending order of
the `(offset, size)` key; the device read path therefore re-sorts ascending. -/
theorem iterOverlapping_descending {V : Type} (m : ChunkMap V) (q : ChunkOffsetSize)
    (hs : m.SortedKeys) :
    (m.iterOverlapping q).Pairwise (fun x y => y.1.keyLt x.1) := by
  unfold ChunkMap.iterOverlapping
  exact (List.pairwise_reverse.mpr (hs.filter _)).sublist (List.takeWhile_sublist _)

/-- C10 witness: the query `[2,8)` on the example map yields its two matches in
descending key order. -/
theorem iterOverlapping_descending_witness :
    (exampleMap.iterOverlapping (ChunkOffsetSize.new 2 6)).Pairwise
      (fun x y => y.1.keyLt x.1) :=
  iterOverlapping_descending exampleMap (ChunkOffsetSize.new 2 6) (by decide)

/-! ## C3 / C2: reads on the chunked-store device -/

/-- C3: the store built from chunks `A` (size 4) and `B` (size 6) with
`source_order = [0, 1, 0]` yields a device of 14 blocks (block size 1), and a
read of 6 bytes at offset 2 returns the last 2 bytes of `A` followed by the
first 4 bytes of `B`. -/
theorem exampleStore_read :
    ((makeDevice exampleRoot exampleDict 1).map
      (fun dev => (dev.block_count, ihopRead exampleFs dev 2 (List.replicate 6 0)))) =
      some (14, Except.ok (exampleChunkA.drop 2 ++ exampleChunkB.take 4)) := rfl

/-- C2 counterexample: on the same device (covered range `[0, 14)`), the read
`offset = 12, length = 4` extends past the covered range, yet returns
success with the uncovered tail of the buffer left zero — not a
store-corruption error as the claim states. -/
theorem ihopRead_past_end_counterexample :
    ((makeDevice exampleRoot exampleDict 1).map
      (fun dev => ihopRead exampleFs dev 12 (List.replicate 4 0))) =
      some (Except.ok [12, 13, 0, 0]) := rfl

/-- Helper: the overlap query on a single-interval map. -/
theorem iterOverlapping_singleton {V : Type} (k : ChunkOffsetSize) (v : V)
    (q : ChunkOffsetSize) (h1 : k.offset < q.end') (h2 : q.offset < k.end') :
    (ChunkMap.mk [(k, v)]).iterOverlapping q = [(k, v)] := by
  unfold ChunkMap.iterOverlapping
  have hc : (k.cmp (ChunkOffsetSize.new q.end' 0) = Ordering.lt) :=
    (cmp_lt_bound_iff k q.end').mpr h1
  simp [hc, List.takeWhile_cons, h2]

/-- C2 (amended): a read whose range starts inside the covered range and
extends past its end does not fail — it returns success, the covered prefix
of the buffer filled from the chunk and the uncovered tail left at the
buffer's prior (zero) contents. -/
theorem ihopRead_past_end (root hash content : List Nat) (bs bc o L : Nat)
    (ho : o < content.length) (hL : content.length < o + L) :
    ihopRead
      (fun p => if p = pathJoin root (chunkPathFromHash hash) then some content else none)
      { root_path := root, block_size := bs, block_count := bc,
        chunk_location_map :=
          ChunkMap.new.insert (ChunkOffsetSize.new 0 content.length)
            (chunkPathFromHash hash) }
      o (List.replicate L 0) =
      Except.ok (content.drop o ++ List.replicate (o + L - content.length) 0) := by
  unfold ihopRead
  simp only [List.length_replicate]
  have hmap : ChunkMap.new.insert (ChunkOffsetSize.new 0 content.length)
      (chunkPathFromHash hash) =
      ChunkMap.mk [(ChunkOffsetSize.new 0 content.length, chunkPathFromHash hash)] := rfl
  rw [hmap]
  rw [iterOverlapping_singleton _ _ _
    (by simp [ChunkOffsetSize.new, ChunkOffsetSize.end']; omega)
    (by simp [ChunkOffsetSize.new, ChunkOffsetSize.end']; omega)]
  simp only [List.insertionSort, List.orderedInsert]
  rw [ihopReadLoop]
  dsimp only [ChunkOffsetSize.new]
  rw [if_pos rfl]
  dsimp only
  rw [if_neg (show ¬ o < 0 by omega)]
  simp only [Nat.sub_zero]
  rw [if_neg (show ¬ content.length < o by omega)]
  rw [show min L (content.length - o) = content.length - o by omega]
  rw [if_neg (show ¬ content.length < o + (content.length - o) by omega)]
  rw [ihopReadLoop]
  have htake : (content.drop o).take (content.length - o) = content.drop o := by
    refine List.take_of_length_le ?_
    simp
  unfold bufWrite
  rw [htake]
  simp only [List.take_zero, List.length_drop, List.nil_append, Nat.zero_add]
  rw [List.drop_replicate]
  rw [show L - (content.length - o) = o + L - content.length by omega]

/-- C2 (amended) witness: a 4-byte read at offset 2 of the 4-byte chunk `A`
device succeeds with the two available bytes and two zero bytes. -/
theorem ihopRead_past_end_witness :
    ihopRead
      (fun p => if p = pathJoin exampleRoot (chunkPathFromHash [1, 2]) then
        some exampleChunkA else none)
      { root_path := exampleRoot, block_size := 1, block_count := 14,
        chunk_location_map :=
          ChunkMap.new.insert (ChunkOffsetSize.new 0 exampleChunkA.length)
            (chunkPathFromHash [1, 2]) }
      2 (List.replicate 4 0) =
      Except.ok (exampleChunkA.drop 2 ++ List.replicate (2 + 4 - exampleChunkA.length) 0) :=
  ihopRead_past_end exampleRoot [1, 2] exampleChunkA 1 14 2 4 (by decide) (by decide)

/-! ## C7: block-count formulas of the two backends -/

/-- C7: the chunked backend reports `source_total_size / block_size` blocks
(integer division, remainder dropped — the reported count covers at most the
source size), while the plain-file backend reports `ceil(file_length /
block_size)` blocks (the reported count covers at least the file). -/
theorem blockCount_formulas (root : List Nat) (dict : StoreDictionary)
    (dev : IhopBackedDevice) (file_length bs : Nat) (hbs : 0 < bs)
    (hdev : makeDevice root dict bs = some dev) :
    (dev.block_count = dict.source_total_size / bs ∧
      dev.block_count * bs ≤ dict.source_total_size ∧
      dict.source_total_size < dev.block_count * bs + bs) ∧
    (fileMountBlockCount file_length bs = (file_length + bs - 1) / bs ∧
      file_length ≤ fileMountBlockCount file_length bs * bs ∧
      fileMountBlockCount file_length bs * bs < file_length + bs) := by
  have hbc : dev.block_count = dict.source_total_size / bs := by
    unfold makeDevice at hdev
    cases hloop : makeDeviceLoop dict.chunk_descriptors dict.source_order 0 ChunkMap.new with
    | none =>
      rw [hloop] at hdev
      cases hdev
    | some m =>
      rw [hloop] at hdev
      cases hdev
      rfl
  constructor
  · refine ⟨hbc, ?_, ?_⟩
    · rw [hbc, Nat.mul_comm]
      have h1 := Nat.div_add_mod dict.source_total_size bs
      omega
    · rw [hbc, Nat.mul_comm]
      have h1 := Nat.div_add_mod dict.source_total_size bs
      have h2 := Nat.mod_lt dict.source_total_size hbs
      omega
  · refine ⟨rfl, ?_, ?_⟩
    · unfold fileMountBlockCount
      rw [Nat.mul_comm]
      have h1 := Nat.div_add_mod (file_length + bs - 1) bs
      have h2 := Nat.mod_lt (file_length + bs - 1) hbs
      omega
    · unfold fileMountBlockCount
      rw [Nat.mul_comm]
      have h1 := Nat.div_add_mod (file_length + bs - 1) bs
      omega

/-- C7 witness: the 14-byte example store with block size 3 reports
`14 / 3 = 4` blocks, while a 14-byte plain file reports 5. -/
theorem blockCount_formulas_witness :
    (exampleDevice3.block_count = exampleDict.source_total_size / 3 ∧
      exampleDevice3.block_count * 3 ≤ exampleDict.source_total_size ∧
      exampleDict.source_total_size < exampleDevice3.block_count * 3 + 3) ∧
    (fileMountBlockCount 14 3 = (14 + 3 - 1) / 3 ∧
      14 ≤ fileMountBlockCount 14 3 * 3 ∧
      fileMountBlockCount 14 3 * 3 < 14 + 3) :=
  blockCount_formulas exampleRoot exampleDict exampleDevice3 14 3 (by decide) (by decide)

/-! ## C9: `write_chunk` does not truncate -/

/-- C9: `write_chunk` opens with create-but-no-truncate, so writing a slice
shorter than a pre-existing chunk file leaves the old tail bytes in place —
the resulting file is not byte-equal to the written chunk; other paths are
untouched. -/
theorem writeChunk_no_truncate (fs : Fs) (root hash buf old : List Nat)
    (hold : fs (pathJoin root (chunkPathFromHash hash)) = some old)
    (hlen : buf.length < old.length) :
    writeChunk fs root hash buf (pathJoin root (chunkPathFromHash hash)) =
      some (buf ++ old.drop buf.length) ∧
    buf ++ old.drop buf.length ≠ buf ∧
    ∀ p, p ≠ pathJoin root (chunkPathFromHash hash) → writeChunk fs root hash buf p = fs p := by
  refine ⟨?_, ?_, ?_⟩
  · unfold writeChunk
    rw [if_pos rfl, hold]
    rfl
  · intro he
    have hl := congrArg List.length he
    simp only [List.length_append, List.length_drop] at hl
    omega
  · intro p hp
    unfold writeChunk
    rw [if_neg hp]

/-- C9 witness: re-writing the 2-byte chunk `[5, 5]` over a pre-existing
4-byte file leaves the stale tail `[0, 0]`. -/
theorem writeChunk_no_truncate_witness :
    writeChunk exampleFsCorrupt exampleRoot [1, 2] [5, 5]
        (pathJoin exampleRoot (chunkPathFromHash [1, 2])) =
      some ([5, 5] ++ List.drop 2 [0, 0, 0, 0]) ∧
    [5, 5] ++ List.drop 2 [0, 0, 0, 0] ≠ [5, 5] :=
  ⟨(writeChunk_no_truncate exampleFsCorrupt exampleRoot [1, 2] [5, 5] [0, 0, 0, 0]
      (by decide) (by decide)).1,
   (writeChunk_no_truncate exampleFsCorrupt exampleRoot [1, 2] [5, 5] [0, 0, 0, 0]
      (by decide) (by decide)).2.1⟩

/-! ## C8: the plain-file device read -/

theorem fileReadLoop_acc (file : List Nat) (bufLen : Nat) :
    ∀ (fuel pos : Nat) (acc : List Nat) (tr : List FileOp),
      bufLen - acc.length ≤ fuel →
      (fileReadLoop file bufLen pos acc tr).1 =
        acc ++ (file.drop pos).take (bufLen - acc.length)
  | 0, pos, acc, tr, hfuel => by
    rw [fileReadLoop, dif_neg (by omega), show bufLen - acc.length = 0 by omega]
    simp
  | fuel+1, pos, acc, tr, hfuel => by
    rw [fileReadLoop]
    by_cases h : acc.length < bufLen
    · rw [dif_pos h]
      by_cases hc : ((file.drop pos).take (bufLen - acc.length)).length = 0
      · rw [dif_pos hc]
        rw [List.length_eq_zero.mp hc]
        simp
      · rw [dif_neg hc]
        have hckle := List.length_take_le (bufLen - acc.length) (file.drop pos)
        rw [fileReadLoop_acc file bufLen fuel _ _ _ (by
          simp only [List.length_append]
          omega)]
        rw [List.append_assoc]
        congr 1
        have hlt : ((file.drop pos).take (bufLen - acc.length)).length =
            min (bufLen - acc.length) (file.drop pos).length := List.length_take _ _
        have hnil : (file.drop
            (pos + ((file.drop pos).take (bufLen - acc.length)).length)).take
            (bufLen - (acc ++ (file.drop pos).take (bufLen - acc.length)).length) = [] := by
          rcases Nat.le_total (bufLen - acc.length) (file.drop pos).length with hle | hle
          · simp only [List.length_append, hlt]
            rw [show bufLen -
              (acc.length + min (bufLen - acc.length) (file.drop pos).length) = 0 by omega]
            exact List.take_zero _
          · have hdd : file.drop (pos + ((file.drop pos).take (bufLen - acc.length)).length) =
                (file.drop pos).drop ((file.drop pos).take (bufLen - acc.length)).length := by
              rw [List.drop_drop]
            rw [hdd, hlt, show min (bufLen - acc.length) (file.drop pos).length =
              (file.drop pos).length by omega]
            rw [List.drop_length]
            exact List.take_nil
        rw [hnil, List.append_nil]
    · rw [dif_neg h]
      rw [show bufLen - acc.length = 0 by omega]
      simp

theorem fileReadLoop_trace (file : List Nat) (bufLen : Nat) :
    ∀ (fuel pos : Nat) (acc : List Nat) (tr : List FileOp),
      bufLen - acc.length ≤ fuel →
      ∀ op ∈ (fileReadLoop file bufLen pos acc tr).2.2,
        op ∈ tr ∨ ∃ n, op = FileOp.readOp n
  | 0, pos, acc, tr, hfuel => by
    rw [fileReadLoop, dif_neg (by omega)]
    intro op hop
    exact Or.inl hop
  | fuel+1, pos, acc, tr, hfuel => by
    rw [fileReadLoop]
    by_cases h : acc.length < bufLen
    · rw [dif_pos h]
      by_cases hc : ((file.drop pos).take (bufLen - acc.length)).length = 0
      · rw [dif_pos hc]
        intro op hop
        rcases List.mem_append.mp hop with h1 | h1
        · exact Or.inl h1
        · exact Or.inr ⟨0, List.mem_singleton.mp h1⟩
      · rw [dif_neg hc]
        intro op hop
        have hckle := List.length_take_le (bufLen - acc.length) (file.drop pos)
        rcases fileReadLoop_trace file bufLen fuel _ _ _ (by
            simp only [List.length_append]
            omega) op hop with h1 | h1
        · rcases List.mem_append.mp h1 with h2 | h2
          · exact Or.inl h2
          · exact Or.inr ⟨_, List.mem_singleton.mp h2⟩
        · exact Or.inr h1
    · rw [dif_neg h]
      intro op hop
      exact Or.inl hop

/-- C8: a read on the plain-file device fills the buffer's prefix with the
bytes available at the requested offset, zero-fills the remainder (in
particular past end-of-file), returns success, and — thanks to the tracked
cursor — performs no seek when the request starts at the current offset. -/
theorem fileRead_spec (dev : FileBackedDevice) (offset bufLen : Nat) :
    (fileRead dev offset bufLen).1 =
      (dev.file.drop offset).take bufLen ++
        List.replicate (bufLen - ((dev.file.drop offset).take bufLen).length) 0 ∧
    (offset = dev.current_file_offs →
      ∀ p, FileOp.seek p ∉ (fileRead dev offset bufLen).2.2) := by
  constructor
  · unfold fileRead
    dsimp only
    rw [fileReadLoop_acc dev.file bufLen bufLen offset [] _ (by simp)]
    simp
  · intro hoff p hmem
    unfold fileRead at hmem
    dsimp only at hmem
    rcases fileReadLoop_trace dev.file bufLen bufLen offset []
        (if offset ≠ dev.current_file_offs then [FileOp.seek offset] else [])
        (by simp) (FileOp.seek p) hmem with h1 | ⟨n, h1⟩
    · rw [if_neg (by simp [hoff])] at h1
      exact List.not_mem_nil _ h1
    · cases h1

/-- C8 witness: on a 5-byte file with the cursor already at offset 2, a
6-byte read at offset 2 yields the 3 available bytes then 3 zero bytes, with
no seek issued. -/
theorem fileRead_spec_witness :
    (fileRead exampleFileDevice 2 6).1 = [3, 4, 5] ++ List.replicate 3 0 ∧
    FileOp.seek 2 ∉ (fileRead exampleFileDevice 2 6).2.2 :=
  ⟨(fileRead_spec exampleFileDevice 2 6).1.trans (by decide),
   (fileRead_spec exampleFileDevice 2 6).2 rfl 2⟩

/-! ## C5: the fetch-set filter of the chunk store -/

theorem mapInsert_of_not_mem {β : Type} (m : List (List Nat × β)) (k : List Nat) (v : β)
    (hk : ∀ kv ∈ m, kv.1 ≠ k) : mapInsert m k v = m ++ [(k, v)] := by
  unfold mapInsert
  rw [if_neg]
  intro hany
  rw [List.any_eq_true] at hany
  obtain ⟨x, hx, hpx⟩ := hany
  exact hk x hx (of_decide_eq_true hpx)

theorem filterPresentChunksGo_fst {β : Type} (fs : Fs) (root : List Nat) (verify : Bool) :
    ∀ (chunks acc : List (List Nat × β)) (tr : List FsOp),
      chunks.Pairwise (fun a b => a.1 ≠ b.1) →
      (∀ kv ∈ acc, ∀ kw ∈ chunks, kv.1 ≠ kw.1) →
      (filterPresentChunksGo fs root verify chunks acc tr).1 =
        acc ++ chunks.filter (fun kv => chunkMissing fs root verify kv.1)
  | [], acc, tr, _, _ => by
    simp [filterPresentChunksGo]
  | (hash, v) :: rest, acc, tr, hdist, hacc => by
    obtain ⟨hhd, htl⟩ := List.pairwise_cons.mp hdist
    have hmapins : mapInsert acc hash v = acc ++ [(hash, v)] :=
      mapInsert_of_not_mem acc hash v
        (fun kv hkv => hacc kv hkv (hash, v) (List.mem_cons_self _ _))
    have hacc' : ∀ kv ∈ acc ++ [(hash, v)], ∀ kw ∈ rest, kv.1 ≠ kw.1 := by
      intro kv hkv kw hkw
      rcases List.mem_append.mp hkv with h1 | h1
      · exact hacc kv h1 kw (List.mem_cons.mpr (Or.inr hkw))
      · rw [List.mem_singleton.mp h1]
        exact hhd kw hkw
    cases hpath : fs (pathJoin root (chunkPathFromHash hash)) with
    | none =>
      have hmiss : chunkMissing fs root verify hash = true := by
        unfold chunkMissing
        rw [hpath]
      simp only [filterPresentChunksGo, hpath]
      rw [filterPresentChunksGo_fst fs root verify rest _ _ htl (hmapins ▸ hacc')]
      simp only [List.filter_cons]
      rw [if_pos (show chunkMissing fs root verify (hash, v).1 = true from hmiss),
        hmapins, List.append_assoc, List.singleton_append]
    | some chunk_buf =>
      have hmiss : chunkMissing fs root verify hash =
          (verify && !(b2Digest chunk_buf hash.length == hash)) := by
        unfold chunkMissing
        rw [hpath]
      simp only [filterPresentChunksGo, hpath]
      by_cases hcond : (verify && !(b2Digest chunk_buf hash.length == hash)) = true
      · rw [if_pos hcond]
        rw [filterPresentChunksGo_fst fs root verify rest _ _ htl (hmapins ▸ hacc')]
        simp only [List.filter_cons]
        rw [if_pos (show chunkMissing fs root verify (hash, v).1 = true from
            hmiss.trans hcond),
          hmapins, List.append_assoc, List.singleton_append]
      · rw [if_neg hcond]
        rw [filterPresentChunksGo_fst fs root verify rest _ _ htl
          (fun kv hkv kw hkw => hacc kv hkv kw (List.mem_cons.mpr (Or.inr hkw)))]
        simp only [List.filter_cons]
        rw [if_neg (show ¬ chunkMissing fs root verify (hash, v).1 = true from by
          intro hx
          rw [hmiss] at hx
          exact hcond hx)]

theorem filterPresentChunksGo_snd {β : Type} (fs : Fs) (root : List Nat) (verify : Bool) :
    ∀ (chunks acc : List (List Nat × β)) (tr : List FsOp),
      (∀ op ∈ tr, (∃ p, op = FsOp.openRead p) ∨ ∃ p, op = FsOp.readToEnd p) →
      ∀ op ∈ (filterPresentChunksGo fs root verify chunks acc tr).2,
        (∃ p, op = FsOp.openRead p) ∨ ∃ p, op = FsOp.readToEnd p
  | [], acc, tr, htr => by
    simpa [filterPresentChunksGo] using htr
  | (hash, v) :: rest, acc, tr, htr => by
    cases hpath : fs (pathJoin root (chunkPathFromHash hash)) with
    | none =>
      simp only [filterPresentChunksGo, hpath]
      refine filterPresentChunksGo_snd fs root verify rest _ _ ?_
      intro op hop
      rcases List.mem_append.mp hop with h1 | h1
      · exact htr op h1
      · exact Or.inl ⟨_, List.mem_singleton.mp h1⟩
    | some chunk_buf =>
      simp only [filterPresentChunksGo, hpath]
      refine filterPresentChunksGo_snd fs root verify rest _ _ ?_
      intro op hop
      rcases List.mem_append.mp hop with h1 | h1
      · rcases List.mem_append.mp h1 with h2 | h2
        · exact htr op h2
        · exact Or.inl ⟨_, List.mem_singleton.mp h2⟩
      · by_cases hv : verify = true
        · rw [if_pos hv] at h1
          exact Or.inr ⟨_, List.mem_singleton.mp h1⟩
        · rw [if_neg hv] at h1
          exact absurd h1 (List.not_mem_nil _)

/-- C5: over a chunk index with distinct hashes, the filter returns exactly
the descriptors whose chunk file is absent plus — when verifying — those
present but whose recomputed content hash at the descriptor's digest length
differs from the stored hash; and it performs only read operations (no
stored file is deleted or modified). -/
theorem filterPresentChunks_exact {β : Type} (fs : Fs) (root : List Nat) (verify : Bool)
    (chunks : List (List Nat × β)) (hdist : chunks.Pairwise (fun a b => a.1 ≠ b.1)) :
    (filterPresentChunks fs root verify chunks).1 =
      chunks.filter (fun kv => chunkMissing fs root verify kv.1) ∧
    ∀ op ∈ (filterPresentChunks fs root verify chunks).2,
      (∃ p, op = FsOp.openRead p) ∨ ∃ p, op = FsOp.readToEnd p := by
  constructor
  · have h := filterPresentChunksGo_fst fs root verify chunks [] [] hdist (by simp)
    simpa [filterPresentChunks] using h
  · intro op hop
    exact filterPresentChunksGo_snd fs root verify chunks [] [] (by simp) op hop

/-- C5 witness: with chunk `A` present but corrupt and chunk `B` absent, the
verified filter marks both for fetching, matching the predicate. -/
theorem filterPresentChunks_exact_witness :
    (filterPresentChunks exampleFsCorrupt exampleRoot true exampleChunkIndex).1 =
      exampleChunkIndex.filter
        (fun kv => chunkMissing exampleFsCorrupt exampleRoot true kv.1) :=
  (filterPresentChunks_exact exampleFsCorrupt exampleRoot true exampleChunkIndex
    (by decide)).1

/-! ## C6: wire-request batch decoding -/

theorem take_append_exact {α : Type _} (l r : List α) (k : Nat) (h : l.length = k) :
    (l ++ r).take k = l := by
  subst h
  exact List.take_left l r

theorem drop_append_exact {α : Type _} (l r : List α) (k : Nat) (h : l.length = k) :
    (l ++ r).drop k = r := by
  subst h
  exact List.drop_left l r

theorem encodeRequest_length (r : Request) : (encodeRequest r).length = 28 := by
  simp [encodeRequest, REQUEST_MAGIC, toBytesBE_length]

theorem commandOfNat_toNat (c : Command) : commandOfNat c.toNat = some c := by
  cases c <;> rfl

theorem tryFromBytes_encode (r : Request) (hwf : WFRequest r = true) :
    tryFromBytes (encodeRequest r) = Except.ok r := by
  have h1 : r.handle < 2 ^ 64 ∧ r.from_ < 2 ^ 64 ∧ r.len < 2 ^ 32 := by
    simpa [WFRequest, Bool.and_eq_true, decide_eq_true_eq, and_assoc] using hwf
  have he4 : encodeRequest r = REQUEST_MAGIC ++ (toBytesBE 4 r.command.toNat ++
      (toBytesBE 8 r.handle ++ (toBytesBE 8 r.from_ ++ toBytesBE 4 r.len))) := by
    simp [encodeRequest, List.append_assoc]
  have he8 : encodeRequest r = (REQUEST_MAGIC ++ toBytesBE 4 r.command.toNat) ++
      (toBytesBE 8 r.handle ++ (toBytesBE 8 r.from_ ++ toBytesBE 4 r.len)) := by
    simp [encodeRequest, List.append_assoc]
  have he16 : encodeRequest r = ((REQUEST_MAGIC ++ toBytesBE 4 r.command.toNat) ++
      toBytesBE 8 r.handle) ++ (toBytesBE 8 r.from_ ++ toBytesBE 4 r.len) := by
    simp [encodeRequest, List.append_assoc]
  have he24 : encodeRequest r = (((REQUEST_MAGIC ++ toBytesBE 4 r.command.toNat) ++
      toBytesBE 8 r.handle) ++ toBytesBE 8 r.from_) ++ toBytesBE 4 r.len := by
    simp [encodeRequest, List.append_assoc]
  have hl8 : (REQUEST_MAGIC ++ toBytesBE 4 r.command.toNat).length = 8 := by
    simp [REQUEST_MAGIC, toBytesBE_length]
  have hl16 : ((REQUEST_MAGIC ++ toBytesBE 4 r.command.toNat) ++
      toBytesBE 8 r.handle).length = 16 := by
    simp [REQUEST_MAGIC, toBytesBE_length]
  have hl24 : (((REQUEST_MAGIC ++ toBytesBE 4 r.command.toNat) ++
      toBytesBE 8 r.handle) ++ toBytesBE 8 r.from_).length = 24 := by
    simp [REQUEST_MAGIC, toBytesBE_length]
  have hcode : r.command.toNat < 256 ^ 4 := by
    cases r.command <;> norm_num [Command.toNat]
  unfold tryFromBytes
  rw [if_neg (show ¬ (encodeRequest r).length ≠ SIZE_OF_REQUEST from by
    rw [encodeRequest_length]
    simp [SIZE_OF_REQUEST])]
  rw [if_neg (show ¬ (encodeRequest r).take 4 ≠ REQUEST_MAGIC from by
    rw [he4, take_append_exact REQUEST_MAGIC _ 4 (by decide)]
    simp)]
  have hslice4 : ((encodeRequest r).drop 4).take 4 = toBytesBE 4 r.command.toNat := by
    rw [he4, drop_append_exact REQUEST_MAGIC _ 4 (by decide),
      take_append_exact _ _ 4 (toBytesBE_length 4 r.command.toNat)]
  have hslice8 : ((encodeRequest r).drop 8).take 8 = toBytesBE 8 r.handle := by
    rw [he8, drop_append_exact _ _ 8 hl8,
      take_append_exact _ _ 8 (toBytesBE_length 8 r.handle)]
  have hslice16 : ((encodeRequest r).drop 16).take 8 = toBytesBE 8 r.from_ := by
    rw [he16, drop_append_exact _ _ 16 hl16,
      take_append_exact _ _ 8 (toBytesBE_length 8 r.from_)]
  have hslice24 : ((encodeRequest r).drop 24).take 4 = toBytesBE 4 r.len := by
    rw [he24, drop_append_exact _ _ 24 hl24]
    refine List.take_of_length_le ?_
    rw [toBytesBE_length]
  rw [hslice4, fromBytesBE_toBytesBE 4 r.command.toNat hcode, commandOfNat_toNat]
  rw [hslice8, fromBytesBE_toBytesBE 8 r.handle (by
    rw [show (256 : Nat) ^ 8 = 2 ^ 64 by norm_num]
    exact h1.1)]
  rw [hslice16, fromBytesBE_toBytesBE 8 r.from_ (by
    rw [show (256 : Nat) ^ 8 = 2 ^ 64 by norm_num]
    exact h1.2.1)]
  rw [hslice24, fromBytesBE_toBytesBE 4 r.len (by
    rw [show (256 : Nat) ^ 4 = 2 ^ 32 by norm_num]
    exact h1.2.2)]

theorem decodeSlices_whole :
    ∀ (reqs : List Request) (pre tail : List Nat),
      (∀ r ∈ reqs, WFRequest r = true) →
      decodeSlices (pre ++ (reqs.map encodeRequest).flatten ++ tail)
        (List.range' pre.length reqs.length SIZE_OF_REQUEST) = Except.ok reqs
  | [], pre, tail, _ => by
    simp [decodeSlices]
  | r :: rest, pre, tail, hwf => by
    rw [show (r :: rest).length = rest.length + 1 from rfl]
    rw [List.range'_succ]
    have hbuf : pre ++ ((r :: rest).map encodeRequest).flatten ++ tail =
        (pre ++ encodeRequest r) ++ (rest.map encodeRequest).flatten ++ tail := by
      simp [List.append_assoc]
    rw [hbuf]
    unfold decodeSlices
    have hslice : (((pre ++ encodeRequest r) ++ (rest.map encodeRequest).flatten ++ tail).drop
        pre.length).take SIZE_OF_REQUEST = encodeRequest r := by
      rw [List.append_assoc, List.append_assoc,
        drop_append_exact pre _ pre.length rfl, ← List.append_assoc]
      exact take_append_exact _ _ _ (encodeRequest_length r)
    rw [hslice, tryFromBytes_encode r (hwf r (List.mem_cons_self _ _))]
    have hrec := decodeSlices_whole rest (pre ++ encodeRequest r) tail
      (fun x hx => hwf x (List.mem_cons.mpr (Or.inr hx)))
    rw [show pre.length + SIZE_OF_REQUEST = (pre ++ encodeRequest r).length from by
      simp [encodeRequest_length, SIZE_OF_REQUEST]]
    simp only [List.append_assoc] at hrec ⊢
    rw [hrec]

/-- C6 (amended): a receive of exactly `k` whole well-formed records decodes
to exactly those `k` requests, preserving field values and their order
(whatever stale bytes follow in the persistent buffer). -/
theorem decodeRequests_whole (reqs : List Request) (tail : List Nat)
    (hwf : ∀ r ∈ reqs, WFRequest r = true) :
    decodeRequests ((reqs.map encodeRequest).flatten ++ tail)
      (SIZE_OF_REQUEST * reqs.length) = Except.ok reqs := by
  unfold decodeRequests stepBy
  rw [show (SIZE_OF_REQUEST * reqs.length + SIZE_OF_REQUEST - 1) / SIZE_OF_REQUEST =
      reqs.length from by simp only [SIZE_OF_REQUEST]; omega]
  have h := decodeSlices_whole reqs [] tail hwf
  simpa using h

/-- C6 witness: a buffer holding two whole encoded requests (batch bytes
`n = 56`) decodes to exactly those two requests in order. -/
theorem decodeRequests_whole_witness :
    decodeRequests (([exampleRequest,
        { command := Command.Write, handle := 9, from_ := 2048, len := 16 }].map
          encodeRequest).flatten ++ List.replicate 56 0)
      (SIZE_OF_REQUEST * 2) =
      Except.ok [exampleRequest,
        { command := Command.Write, handle := 9, from_ := 2048, len := 16 }] :=
  decodeRequests_whole
    [exampleRequest, { command := Command.Write, handle := 9, from_ := 2048, len := 16 }]
    (List.replicate 56 0) (by decide)

/-- C6 counterexample: a receive of `n = 42` bytes — one whole record and the
first 14 bytes of a second (`42` is not a multiple of the 28-byte record
size) — is not rejected: the loop slices a full record at offset 28, mixing
the 14 received bytes with 14 stale buffer bytes, and decodes successfully
to two requests, the second one corrupt. -/
theorem decodeRequests_partial_counterexample :
    42 % SIZE_OF_REQUEST ≠ 0 ∧
    decodeRequests examplePartialBuf 42 =
      Except.ok [exampleRequest,
        { command := Command.Read, handle := 0, from_ := 0, len := 0 }] :=
  ⟨by decide, rfl⟩

/-! ## C4: store-header layout, round-trip and tamper detection -/

theorem readBytesN_exact (l r : List Nat) (k : Nat) (h : l.length = k) :
    readBytesN k (l ++ r) = some (l, r) := by
  unfold readBytesN
  rw [if_pos (show k ≤ (l ++ r).length by
    simp only [List.length_append]
    omega)]
  rw [take_append_exact _ _ _ h, drop_append_exact _ _ _ h]

theorem readLE64_exact (v : Nat) (r : List Nat) (hv : v < 2 ^ 64) :
    readLE64 (toBytesLE 8 v ++ r) = some (v, r) := by
  unfold readLE64
  rw [readBytesN_exact _ _ 8 (toBytesLE_length 8 v)]
  simp [fromBytesLE_toBytesLE 8 v (by
    rw [show (256 : Nat) ^ 8 = 2 ^ 64 by norm_num]
    exact hv)]

theorem readBytesField_exact (bs r : List Nat) (h : bs.length < 2 ^ 64) :
    readBytesField (encodeBytesField bs ++ r) = some (bs, r) := by
  unfold readBytesField encodeBytesField
  rw [List.append_assoc, readLE64_exact _ _ h]
  exact readBytesN_exact _ _ _ rfl

theorem readParams_exact (o : Option ChunkerParameters) (r : List Nat)
    (h : WFParams o = true) : readParams (encodeParams o ++ r) = some (o, r) := by
  cases o with
  | none => rfl
  | some p =>
    obtain ⟨⟨⟨⟨⟨h1, h2⟩, h3⟩, h4⟩, h5⟩, h6⟩ :
        (((((p.chunk_hash_length < 2 ^ 64 ∧ p.chunk_filter_bits < 2 ^ 64) ∧
          p.chunking_algorithm < 2 ^ 64) ∧ p.min_chunk_size < 2 ^ 64) ∧
          p.max_chunk_size < 2 ^ 64) ∧ p.rolling_hash_window_size < 2 ^ 64) := by
      simpa [WFParams, Bool.and_eq_true, decide_eq_true_eq] using h
    show readParams (1 :: (toBytesLE 8 p.chunk_hash_length ++ toBytesLE 8 p.chunk_filter_bits ++
      toBytesLE 8 p.chunking_algorithm ++ toBytesLE 8 p.min_chunk_size ++
      toBytesLE 8 p.max_chunk_size ++ toBytesLE 8 p.rolling_hash_window_size) ++ r) =
      some (some p, r)
    rw [List.cons_append]
    unfold readParams
    simp only [List.append_assoc]
    rw [readLE64_exact _ _ h1]
    dsimp only
    rw [readLE64_exact _ _ h2]
    dsimp only
    rw [readLE64_exact _ _ h3]
    dsimp only
    rw [readLE64_exact _ _ h4]
    dsimp only
    rw [readLE64_exact _ _ h5]
    dsimp only
    rw [readLE64_exact _ _ h6]

theorem readDescriptor_exact (cd : ChunkDescriptor) (r : List Nat)
    (hck : cd.checksum.length < 2 ^ 64) (hsz : cd.source_size < 2 ^ 64) :
    readDescriptor (encodeDescriptor cd ++ r) = some (cd, r) := by
  unfold readDescriptor encodeDescriptor
  rw [List.append_assoc, readBytesField_exact _ _ hck]
  dsimp only
  rw [readLE64_exact _ _ hsz]

theorem readListN_exact {α : Type} (read1 : List Nat → Option (α × List Nat))
    (enc : α → List Nat) (P : α → Prop)
    (hread : ∀ a r, P a → read1 (enc a ++ r) = some (a, r)) :
    ∀ (l : List α) (r : List Nat), (∀ a ∈ l, P a) →
      readListN read1 l.length ((l.map enc).flatten ++ r) = some (l, r)
  | [], r, _ => by simp [readListN]
  | a :: rest, r, hl => by
    show readListN read1 (rest.length + 1) (((a :: rest).map enc).flatten ++ r) =
      some (a :: rest, r)
    unfold readListN
    simp only [List.map_cons, List.flatten_cons, List.append_assoc]
    rw [hread a _ (hl a (List.mem_cons_self _ _))]
    dsimp only
    rw [readListN_exact read1 enc P hread rest r
      (fun x hx => hl x (List.mem_cons.mpr (Or.inr hx)))]

theorem decodeDict_encodeDict (d : StoreDictionary) (hwf : WFDict d = true) :
    decodeDict (encodeDict d) = some d := by
  have hw := hwf
  unfold WFDict at hw
  simp only [Bool.and_eq_true, decide_eq_true_eq, List.all_eq_true] at hw
  obtain ⟨⟨⟨⟨⟨⟨⟨⟨⟨⟨_, hverlen⟩, _⟩, hcklen⟩, htot⟩, horder⟩, hordlen⟩, hdesc⟩,
    hdesclen⟩, hparams⟩, _⟩ := hw
  unfold decodeDict
  have henc : encodeDict d = encodeBytesField d.application_version ++
      (encodeParams d.chunker_params ++ (encodeBytesField d.source_checksum ++
      (toBytesLE 8 d.source_total_size ++ (toBytesLE 8 d.source_order.length ++
      ((d.source_order.map (toBytesLE 8)).flatten ++ (toBytesLE 8 d.chunk_descriptors.length ++
      ((d.chunk_descriptors.map encodeDescriptor).flatten ++ []))))))) := by
    simp [encodeDict, List.append_assoc]
  rw [henc]
  rw [readBytesField_exact _ _ hverlen]
  dsimp only
  rw [readParams_exact _ _ hparams]
  dsimp only
  rw [readBytesField_exact _ _ hcklen]
  dsimp only
  rw [readLE64_exact _ _ htot]
  dsimp only
  rw [readLE64_exact _ _ hordlen]
  dsimp only
  rw [readListN_exact readLE64 (toBytesLE 8) (fun x => x < 2 ^ 64)
    (fun a r ha => readLE64_exact a r ha) d.source_order _
    (fun x hx => by
      have := horder x hx
      omega)]
  dsimp only
  rw [readLE64_exact _ _ hdesclen]
  dsimp only
  rw [readListN_exact readDescriptor encodeDescriptor
    (fun cd => cd.checksum.length < 2 ^ 64 ∧ cd.source_size < 2 ^ 64)
    (fun a r ha => readDescriptor_exact a r ha.1 ha.2) d.chunk_descriptors []
    (fun cd hcd => ⟨(hdesc cd hcd).1.2, (hdesc cd hcd).2⟩)]

theorem polyAcc_lt (l : List Nat) : polyAcc l < digestP := by
  cases l with
  | nil => decide
  | cons b rest =>
    show polyStep (polyAcc rest) b < digestP
    unfold polyStep
    exact Nat.mod_lt _ (by decide)

theorem polyStep_ne_acc {a a' b : Nat} (ha : a < digestP) (ha' : a' < digestP)
    (hne : a ≠ a') : polyStep a b ≠ polyStep a' b := by
  intro heq
  unfold polyStep at heq
  have hmod : a * 257 + (b % 256 + 1) ≡ a' * 257 + (b % 256 + 1) [MOD digestP] := by
    unfold Nat.ModEq
    rw [← Nat.add_assoc, ← Nat.add_assoc]
    exact heq
  have hmul := Nat.ModEq.add_right_cancel' _ hmod
  rw [Nat.mul_comm a 257, Nat.mul_comm a' 257] at hmul
  have hcan := Nat.ModEq.cancel_left_of_coprime (by decide) hmul
  unfold Nat.ModEq at hcan
  rw [Nat.mod_eq_of_lt ha, Nat.mod_eq_of_lt ha'] at hcan
  exact hne hcan

theorem polyStep_ne_b {a b b' : Nat} (hb : b < 256) (hb' : b' < 256) (hne : b ≠ b') :
    polyStep a b ≠ polyStep a b' := by
  intro heq
  unfold polyStep at heq
  have hmod : a * 257 + (b % 256 + 1) ≡ a * 257 + (b' % 256 + 1) [MOD digestP] := by
    unfold Nat.ModEq
    rw [← Nat.add_assoc, ← Nat.add_assoc]
    exact heq
  have hcan := Nat.ModEq.add_left_cancel' _ hmod
  rw [Nat.mod_eq_of_lt hb, Nat.mod_eq_of_lt hb'] at hcan
  unfold Nat.ModEq at hcan
  rw [Nat.mod_eq_of_lt (show b + 1 < digestP by unfold digestP; omega),
    Nat.mod_eq_of_lt (show b' + 1 < digestP by unfold digestP; omega)] at hcan
  omega

theorem polyAcc_ne_single_change :
    ∀ (pre suf : List Nat) (b b' : Nat), b < 256 → b' < 256 → b ≠ b' →
      polyAcc (pre ++ b :: suf) ≠ polyAcc (pre ++ b' :: suf)
  | [], suf, b, b', hb, hb', hne => by
    show polyStep (polyAcc suf) b ≠ polyStep (polyAcc suf) b'
    exact polyStep_ne_b hb hb' hne
  | x :: pre, suf, b, b', hb, hb', hne => by
    show polyStep (polyAcc (pre ++ b :: suf)) x ≠ polyStep (polyAcc (pre ++ b' :: suf)) x
    exact polyStep_ne_acc (polyAcc_lt _) (polyAcc_lt _)
      (polyAcc_ne_single_change pre suf b b' hb hb' hne)

theorem blake2b_ne_single_change (pre suf : List Nat) (b b' : Nat)
    (hb : b < 256) (hb' : b' < 256) (hne : b ≠ b') :
    blake2b (pre ++ b :: suf) ≠ blake2b (pre ++ b' :: suf) := by
  intro heq
  unfold blake2b at heq
  have h8 := congrArg (List.take 8) heq
  rw [List.append_assoc, List.append_assoc,
    take_append_exact _ _ 8 (toBytesLE_length _ _),
    take_append_exact _ _ 8 (toBytesLE_length _ _)] at h8
  have hbound : digestP < 256 ^ 8 := by norm_num [digestP]
  have hinj := toBytesLE_injective 8 _ _
    (lt_trans (polyAcc_lt _) hbound) (lt_trans (polyAcc_lt _) hbound) h8
  exact polyAcc_ne_single_change pre suf b b' hb hb' hne hinj

theorem blake2b_length (data : List Nat) : (blake2b data).length = 64 := by
  simp [blake2b, toBytesLE_length]

theorem readBytesN_all (l : List Nat) (k : Nat) (h : l.length = k) :
    readBytesN k l = some (l, []) := by
  have h2 := readBytesN_exact l [] k h
  simpa using h2

theorem eq_take_getD_cons_drop {α : Type _} (d : α) :
    ∀ (l : List α) (i : Nat), i < l.length →
      l = l.take i ++ l.getD i d :: l.drop (i + 1)
  | [], i, h => by simp at h
  | x :: xs, 0, h => by simp [List.getD]
  | x :: xs, i+1, h => by
    have ih := eq_take_getD_cons_drop d xs i (by simpa using h)
    rw [List.take_succ_cons, List.drop_succ_cons]
    rw [show (x :: xs).getD (i + 1) d = xs.getD i d by simp [List.getD]]
    rw [List.cons_append, ← ih]

theorem encodeBytesField_lt (bs : List Nat) (h : ∀ b ∈ bs, b < 256) :
    ∀ x ∈ encodeBytesField bs, x < 256 := by
  intro x hx
  rcases List.mem_append.mp hx with h1 | h1
  · exact toBytesLE_lt _ _ x h1
  · exact h x h1

theorem encodeParams_lt (o : Option ChunkerParameters) :
    ∀ x ∈ encodeParams o, x < 256 := by
  intro x hx
  cases o with
  | none =>
    simp only [encodeParams, List.mem_singleton] at hx
    omega
  | some p =>
    simp only [encodeParams, List.mem_cons, List.mem_append] at hx
    rcases hx with h | ((((h | h) | h) | h) | h) | h
    · omega
    all_goals exact toBytesLE_lt _ _ x h

theorem encodeDescriptor_lt (cd : ChunkDescriptor) (h : ∀ b ∈ cd.checksum, b < 256) :
    ∀ x ∈ encodeDescriptor cd, x < 256 := by
  intro x hx
  rcases List.mem_append.mp hx with h1 | h1
  · exact encodeBytesField_lt _ h x h1
  · exact toBytesLE_lt _ _ x h1

theorem encodeDict_lt (d : StoreDictionary) (hwf : WFDict d = true) :
    ∀ x ∈ encodeDict d, x < 256 := by
  have hw := hwf
  unfold WFDict at hw
  simp only [Bool.and_eq_true, decide_eq_true_eq, List.all_eq_true] at hw
  obtain ⟨⟨⟨⟨⟨⟨⟨⟨⟨⟨hver, _⟩, hck⟩, _⟩, _⟩, _⟩, _⟩, hdesc⟩, _⟩, _⟩, _⟩ := hw
  intro x hx
  simp only [encodeDict, List.mem_append] at hx
  rcases hx with ((((((h | h) | h) | h) | h) | h) | h) | h
  · exact encodeBytesField_lt _ (fun b hb => (hver b hb)) x h
  · exact encodeParams_lt _ x h
  · exact encodeBytesField_lt _ (fun b hb => (hck b hb)) x h
  · exact toBytesLE_lt _ _ x h
  · exact toBytesLE_lt _ _ x h
  · obtain ⟨l, hl, hxl⟩ := List.mem_flatten.mp h
    obtain ⟨v, _, hv⟩ := List.mem_map.mp hl
    rw [← hv] at hxl
    exact toBytesLE_lt _ _ x hxl
  · exact toBytesLE_lt _ _ x h
  · obtain ⟨l, hl, hxl⟩ := List.mem_flatten.mp h
    obtain ⟨cd, hcd, hv⟩ := List.mem_map.mp hl
    rw [← hv] at hxl
    exact encodeDescriptor_lt cd (fun b hb => (hdesc cd hcd).1.1 b hb) x hxl

/-- The parse of any store file laid out as `MAGIC || le64(len) || dict ||
digest`: everything up to the digest comparison is deterministic. -/
theorem mountParse_shape (dictbuf digest : List Nat) (hn : dictbuf.length < 2 ^ 64)
    (hdg : digest.length = 64) :
    mountParse ((STORE_MAGIC ++ toBytesLE 8 dictbuf.length ++ dictbuf) ++ digest) =
      if blake2b (STORE_MAGIC ++ toBytesLE 8 dictbuf.length ++ dictbuf) ≠ digest then
        Except.error ("header checksum mismatch")
      else
        match decodeDict dictbuf with
        | none => Except.error ("decode dictionary")
        | some dictionary => Except.ok dictionary := by
  unfold mountParse
  have hform : (STORE_MAGIC ++ toBytesLE 8 dictbuf.length ++ dictbuf) ++ digest =
      STORE_MAGIC ++ (toBytesLE 8 dictbuf.length ++ (dictbuf ++ digest)) := by
    simp [List.append_assoc]
  rw [hform]
  rw [readBytesN_exact STORE_MAGIC _ 6 rfl]
  dsimp only
  rw [if_pos rfl]
  unfold mountIhopParse
  rw [readBytesN_exact _ _ 8 (toBytesLE_length 8 dictbuf.length)]
  dsimp only
  rw [fromBytesLE_toBytesLE 8 dictbuf.length (by
    rw [show (256 : Nat) ^ 8 = 2 ^ 64 by norm_num]
    exact hn)]
  rw [readBytesN_exact dictbuf digest _ rfl]
  dsimp only
  rw [readBytesN_all digest 64 hdg]

/-- C4: the store header is `MAGIC || dict_len (u64 LE) || encoded dictionary
|| wide digest over the preceding bytes`; mounting parses exactly this layout,
the digest verification passes, and decoding returns the identical dictionary
(descriptor list, source order, checksum and total size included); mutating
any single byte of the dictionary section makes the digest verification fail. -/
theorem storeHeader_roundtrip_tamper (d : StoreDictionary) (hwf : WFDict d = true) :
    mountParse (buildStoreHeader d) = Except.ok d ∧
    ∀ i b', i < (encodeDict d).length → b' < 256 → b' ≠ (encodeDict d).getD i 0 →
      mountParse ((buildStoreHeader d).set (14 + i) b') =
        Except.error ("header checksum mismatch") := by
  have hn : (encodeDict d).length < 2 ^ 64 := by
    have hw := hwf
    unfold WFDict at hw
    simp only [Bool.and_eq_true, decide_eq_true_eq] at hw
    exact hw.2
  have hbuild : buildStoreHeader d = (STORE_MAGIC ++ toBytesLE 8 (encodeDict d).length ++
      encodeDict d) ++ blake2b (STORE_MAGIC ++ toBytesLE 8 (encodeDict d).length ++
      encodeDict d) := rfl
  have hpre : (STORE_MAGIC ++ toBytesLE 8 (encodeDict d).length).length = 14 := by
    simp [STORE_MAGIC, toBytesLE_length]
  constructor
  · rw [hbuild, mountParse_shape _ _ hn (blake2b_length _)]
    rw [if_neg (by simp)]
    rw [decodeDict_encodeDict d hwf]
  · intro i b' hi hb' hne
    have hset : (buildStoreHeader d).set (14 + i) b' =
        (STORE_MAGIC ++ toBytesLE 8 (encodeDict d).length ++ (encodeDict d).set i b') ++
          blake2b (STORE_MAGIC ++ toBytesLE 8 (encodeDict d).length ++ encodeDict d) := by
      rw [hbuild, List.set_append, if_pos (by
        simp only [List.length_append]
        simp only [List.length_append] at hpre
        omega)]
      rw [List.set_append, if_neg (by rw [hpre]; omega), hpre,
        show 14 + i - 14 = i by omega]
    rw [hset]
    have hlen' : ((encodeDict d).set i b').length = (encodeDict d).length := by simp
    have hshape := mountParse_shape ((encodeDict d).set i b')
      (blake2b (STORE_MAGIC ++ toBytesLE 8 (encodeDict d).length ++ encodeDict d))
      (by rw [hlen']; exact hn) (blake2b_length _)
    rw [hlen'] at hshape
    rw [hshape]
    have hsplit : (encodeDict d).set i b' =
        (encodeDict d).take i ++ b' :: (encodeDict d).drop (i + 1) := by
      rw [List.set_eq_take_append_cons_drop, if_pos hi]
    have horig : encodeDict d =
        (encodeDict d).take i ++ (encodeDict d).getD i 0 :: (encodeDict d).drop (i + 1) :=
      eq_take_getD_cons_drop 0 _ i hi
    have hgd : (encodeDict d).getD i 0 < 256 := by
      refine encodeDict_lt d hwf _ ?_
      rw [List.getD_eq_getElem _ 0 hi]
      exact List.getElem_mem hi
    have h1 : STORE_MAGIC ++ toBytesLE 8 (encodeDict d).length ++ (encodeDict d).set i b' =
        STORE_MAGIC ++ toBytesLE 8 (encodeDict d).length ++
          ((encodeDict d).take i ++ b' :: (encodeDict d).drop (i + 1)) :=
      congrArg (fun t => STORE_MAGIC ++ toBytesLE 8 (encodeDict d).length ++ t) hsplit
    have h2 : STORE_MAGIC ++ toBytesLE 8 (encodeDict d).length ++ encodeDict d =
        STORE_MAGIC ++ toBytesLE 8 (encodeDict d).length ++
          ((encodeDict d).take i ++
            (encodeDict d).getD i 0 :: (encodeDict d).drop (i + 1)) :=
      congrArg (fun t => STORE_MAGIC ++ toBytesLE 8 (encodeDict d).length ++ t) horig
    have hfinal : blake2b (STORE_MAGIC ++ toBytesLE 8 (encodeDict d).length ++
        (encodeDict d).set i b') ≠
        blake2b (STORE_MAGIC ++ toBytesLE 8 (encodeDict d).length ++ encodeDict d) := by
      rw [h1.trans (List.append_assoc _ _ _).symm, h2.trans (List.append_assoc _ _ _).symm]
      exact blake2b_ne_single_change _ _ _ _ hb' hgd hne
    rw [if_pos hfinal]

set_option maxRecDepth 4000 in
/-- C4 witness: the concrete example dictionary round-trips through the
header, and flipping the first dictionary byte (offset 14 of the file) fails
the mount-time checksum verification. -/
theorem storeHeader_roundtrip_tamper_witness :
    mountParse (buildStoreHeader exampleDict) = Except.ok exampleDict ∧
    mountParse ((buildStoreHeader exampleDict).set (14 + 0) 7) =
      Except.error ("header checksum mismatch") :=
  ⟨(storeHeader_roundtrip_tamper exampleDict (by decide)).1,
   (storeHeader_roundtrip_tamper exampleDict (by decide)).2 0 7 (by decide) (by decide)
     (by decide)⟩
